import Mathlib

set_option autoImplicit false

/-!
Verification of the project-code discovery / ignore-rule engine.

Strings of the source are modeled as lists of characters (`Str`), JavaScript
`Array` values as Lean lists, `Map` values as association lists in insertion
order, `Date` values as integer timestamps, and filesystem access
(`statSync`, `readdirSync`) as explicit function parameters or an inductive
directory tree.  Regular expressions built by `patternToRegex` and
`simplePatternToRegex` fall into a small fragment (literals, `.`, `.*`,
`[^/]`, `[^/]*`, anchored at both ends); that fragment is embedded as a token
list together with a backtracking matcher with exactly the semantics of
`RegExp.test` on it.
-/

namespace ProjectCode

/-- Characters of a JavaScript string, in order. -/
abbrev Str := List Char

/-- Models JavaScript `String.prototype.split` with a single-character
separator: `"".split(c) = [""]`, separators delimit (possibly empty) fields. -/
def splitOnChar (sep : Char) : Str → List Str
  | [] => [[]]
  | c :: rest =>
    let r := splitOnChar sep rest
    if c = sep then [] :: r
    else
      match r with
      | [] => [[c]]
      | h :: t => (c :: h) :: t

/-- Models `Array.prototype.join("/")` on a list of path segments. -/
def joinSegs : List Str → Str
  | [] => []
  | [s] => s
  | s :: rest => s ++ '/' :: joinSegs rest

/-- JavaScript whitespace recognized by `String.prototype.trim`
(the code points relevant to ignore-file lines). -/
def isJsWhitespace (c : Char) : Bool :=
  c = ' ' || c = '\t' || c = '\n' || c = '\r' || c = '\x0b' || c = '\x0c' || c = '\u00A0'

/-- Models `String.prototype.trim`. -/
def jsTrim (s : Str) : Str :=
  ((s.dropWhile isJsWhitespace).reverse.dropWhile isJsWhitespace).reverse

/-- The `patternCombinationStrategy` option values. -/
inductive PatternCombinationStrategy where
  | merge
  | override
  | priority
deriving DecidableEq, Repr

/-- The provenance classes of the `priorityOrder` option. -/
inductive PriorityClass where
  | globalScope
  | localScope
  | rootScope
deriving DecidableEq, Repr

/-- The `GitignoreOptions` interface (fields the modeled code reads).
Optional numeric fields use `0` for an absent (`undefined`, falsy) value,
matching the truthiness tests in the source. -/
structure GitignoreOptions where
  cacheEnabled : Bool := false
  cacheSize : Nat := 0
  cacheTTL : Int := 0
  enabled : Bool
  patternCombinationStrategy : PatternCombinationStrategy
  priorityOrder : Option (List PriorityClass) := none
deriving DecidableEq, Repr

/-- The `GitignorePattern` interface. -/
structure GitignorePattern where
  directory : Str
  lineNumber : Nat
  negated : Bool
  originalLine : Str
  pattern : Str
deriving DecidableEq, Repr

/-- The `GitignoreMatchResult` interface (`none` models an `undefined` field). -/
structure GitignoreMatchResult where
  excluded : Bool
  matchedBy : Option GitignorePattern := none
  reason : Option Str := none
deriving DecidableEq, Repr

namespace GitignoreParser

/-- The regular-expression fragment produced by `patternToRegex` and
`simplePatternToRegex`: literal characters (regex metacharacters having been
escaped), `.`, `.*`, `[^/]` and `[^/]*`. -/
inductive RTok where
  | lit (c : Char)
  | anyChar
  | anyStar
  | starNonSep
  | oneNonSep
deriving DecidableEq, Repr

/-- What the JavaScript regex `.` matches: any character except a line
terminator. -/
def isDotChar (c : Char) : Bool :=
  c ≠ '\n' && c ≠ '\r' && c ≠ '\u2028' && c ≠ '\u2029'

/-- Anchored matching of a token list against a string: the semantics of
`new RegExp("^" + r + "$").test(s)` for the fragment `RTok` covers.  A
starred atom (`.*` or `[^/]*`) followed by the remaining tokens matches `s`
exactly when for some split of `s` the starred atom consumes a prefix
character by character and the remaining tokens match the suffix; every
split is tried, which decides existence of a match. -/
def regexTest : List RTok → Str → Bool
  | [], s => decide (s = [])
  | .lit c :: ts, s =>
    match s with
    | [] => false
    | d :: s2 => (c = d) && regexTest ts s2
  | .anyChar :: ts, s =>
    match s with
    | [] => false
    | d :: s2 => isDotChar d && regexTest ts s2
  | .oneNonSep :: ts, s =>
    match s with
    | [] => false
    | d :: s2 => (d ≠ '/') && regexTest ts s2
  | .anyStar :: ts, s =>
    (List.range (s.length + 1)).any fun k =>
      (s.take k).all isDotChar && regexTest ts (s.drop k)
  | .starNonSep :: ts, s =>
    (List.range (s.length + 1)).any fun k =>
      (s.take k).all (fun d => d ≠ '/') && regexTest ts (s.drop k)

/-- `GitignoreParser.simplePatternToRegex`: escape regex metacharacters, then
`replaceAll('*', '.*')` and `replaceAll('?', '.')`.  Escaped metacharacters
and ordinary characters are literals; each `*` of the pattern becomes `.*`
and each `?` becomes `.`. -/
def simplePatternToRegex : Str → List RTok
  | [] => []
  | '*' :: rest => .anyStar :: simplePatternToRegex rest
  | '?' :: rest => .anyChar :: simplePatternToRegex rest
  | c :: rest => .lit c :: simplePatternToRegex rest

/-- `GitignoreParser.patternToRegex`: escape regex metacharacters, then
`replaceAll('**', '.*')`, `replaceAll('*', '[^/]*')`, `replaceAll('?', '[^/]')`.
The second replacement also rewrites the `*` inside each `.*` produced by the
first, so a `**` pair ends up as `.[^/]*` (one arbitrary character, then any
number of non-separator characters); a leftover single `*` becomes `[^/]*`
and `?` becomes `[^/]`. -/
def patternToRegex : Str → List RTok
  | [] => []
  | '*' :: '*' :: rest => .anyChar :: .starNonSep :: patternToRegex rest
  | '*' :: rest => .starNonSep :: patternToRegex rest
  | '?' :: rest => .oneNonSep :: patternToRegex rest
  | c :: rest => .lit c :: patternToRegex rest

/-- Models `pattern.includes('**')`. -/
def hasDoubleStar : Str → Bool
  | '*' :: '*' :: _ => true
  | _ :: rest => hasDoubleStar rest
  | [] => false

/-- What one regex token may consume in a successful match: a literal its
character, `.` one non-line-terminator character, `[^/]` one non-separator
character, `.*` any characters, `[^/]*` any characters none of which is the
separator. -/
def TokMatchesChunk : RTok → Str → Prop
  | .lit c, s => s = [c]
  | .anyChar, s => ∃ d, s = [d] ∧ isDotChar d = true
  | .anyStar, s => ∀ d ∈ s, isDotChar d = true
  | .starNonSep, s => ∀ d ∈ s, d ≠ '/'
  | .oneNonSep, s => ∃ d, s = [d] ∧ d ≠ '/'

/-- `GitignoreParser.matchSimpleWildcard`. -/
def matchSimpleWildcard (path pattern : Str) : Bool :=
  regexTest (simplePatternToRegex pattern) path

/-- `GitignoreParser.matchDoubleWildcard`. -/
def matchDoubleWildcard (path pattern : Str) : Bool :=
  regexTest (patternToRegex pattern) path

/-- `GitignoreParser.matchGlobPattern`. -/
def matchGlobPattern (path pattern : Str) (_options : GitignoreOptions) : Bool :=
  if hasDoubleStar pattern then matchDoubleWildcard path pattern
  else matchSimpleWildcard path pattern

/-- `GitignoreParser.matchDirectoryPattern` (patterns ending with `/`). -/
def matchDirectoryPattern (path pattern : Str) : Bool :=
  let cleanPattern := pattern.dropLast
  if path = cleanPattern then true
  else if (cleanPattern ++ ['/']).isPrefixOf path then true
  else false

/-- `GitignoreParser.normalizePath`: `replaceAll('\\', '/')`. -/
def normalizePath (filePath : Str) : Str :=
  filePath.map fun c => if c = '\\' then '/' else c

/-- `GitignoreParser.normalizePattern`: `replaceAll('\\', '/')`. -/
def normalizePattern (pattern : Str) : Str :=
  pattern.map fun c => if c = '\\' then '/' else c

/-- `GitignoreParser.patternMatches`.  The trailing-slash test is made on the
unnormalized pattern text, the submatchers receive the normalized forms,
exactly as in the source. -/
def patternMatches (filePath : Str) (pattern : GitignorePattern)
    (options : GitignoreOptions) : Bool :=
  let normalizedPath := normalizePath filePath
  let normalizedPattern := normalizePattern pattern.pattern
  if pattern.pattern.getLast? = some '/' then
    matchDirectoryPattern normalizedPath normalizedPattern
  else
    matchGlobPattern normalizedPath normalizedPattern options

/-- The loop body of `GitignoreParser.matchPath`, threading the mutable
`(excluded, lastMatchingPattern, reason)` state through the pattern list. -/
def matchPathLoop (filePath : Str) (options : GitignoreOptions) :
    List GitignorePattern → Bool × Option GitignorePattern × Str →
    Bool × Option GitignorePattern × Str
  | [], st => st
  | pattern :: rest, st =>
    let st' :=
      if patternMatches filePath pattern options then
        if pattern.negated then
          (false, st.2.1, ("Included by negation pattern: ".data ++ pattern.pattern))
        else
          (true, some pattern, ("Excluded by pattern: ".data ++ pattern.pattern))
      else st
    matchPathLoop filePath options rest st'

/-- `GitignoreParser.matchPath`. -/
def matchPath (filePath : Str) (patterns : List GitignorePattern)
    (options : GitignoreOptions) : GitignoreMatchResult :=
  if !options.enabled then { excluded := false }
  else
    let st := matchPathLoop filePath options patterns (false, none, [])
    { excluded := st.1, matchedBy := st.2.1, reason := some st.2.2 }

/-- `GitignoreParser.parsePattern`. -/
def parsePattern (line : Str) (baseDir : Str) (lineNumber : Nat) :
    Option GitignorePattern :=
  let isNegated := line.head? = some '!'
  let patternText := if isNegated then line.drop 1 else line
  if (jsTrim patternText).isEmpty then none
  else
    some { directory := baseDir
           lineNumber := lineNumber
           negated := isNegated
           originalLine := line
           pattern := patternText }

/-- One line of the loop of `GitignoreParser.parseGitignoreContent`: skip the
line when its trimmed form is empty or starts with the comment marker,
otherwise parse it, handing `patterns.length + 1` to `parsePattern` as the
recorded line number, and push a non-null result. -/
def parseContentStep (baseDir : Str) (patterns : List GitignorePattern)
    (line : Str) : List GitignorePattern :=
  let trimmedLine := jsTrim line
  if trimmedLine.isEmpty || trimmedLine.head? = some '#' then patterns
  else
    match parsePattern trimmedLine baseDir (patterns.length + 1) with
    | some pattern => patterns ++ [pattern]
    | none => patterns

/-- `GitignoreParser.parseGitignoreContent`: split into lines and fold the
loop body over them. -/
def parseGitignoreContent (content : Str) (baseDir : Str) : List GitignorePattern :=
  (splitOnChar '\n' content).foldl (parseContentStep baseDir) []

/-- One insertion step of a stable comparator sort (negative comparator
result puts the inserted element first; ties keep it after, preserving
relative order). -/
def jsInsert {α : Type} (cmp : α → α → Int) : List α → α → List α
  | [], x => [x]
  | y :: ys, x => if cmp x y < 0 then x :: y :: ys else y :: jsInsert cmp ys x

/-- Models `Array.prototype.sort(cmp)`: a stable sort driven by a
three-way comparator (stability is guaranteed by the language spec). -/
def jsSortWith {α : Type} (cmp : α → α → Int) (l : List α) : List α :=
  l.foldl (fun acc x => jsInsert cmp acc x) []

/-- `GitignoreParser.sortPatternsByPriority`: `patterns.sort(() => 0)`. -/
def sortPatternsByPriority (patterns : List GitignorePattern)
    (_priorityOrder : List PriorityClass) : List GitignorePattern :=
  jsSortWith (fun _ _ => (0 : Int)) patterns

/-- `GitignoreParser.mergePatterns`.  In the source the `priority` branch is
taken when `options.priorityOrder` is present (any array is truthy). -/
def mergePatterns (patterns : List GitignorePattern)
    (options : GitignoreOptions) : List GitignorePattern :=
  if options.patternCombinationStrategy = PatternCombinationStrategy.override then
    patterns
  else
    match options.patternCombinationStrategy, options.priorityOrder with
    | PatternCombinationStrategy.priority, some priorityOrder =>
      sortPatternsByPriority patterns priorityOrder
    | _, _ => patterns

/-- Models `join(dirPath, fileName)` of Node for a plain relative file name:
the directory path, a separator, the file name. -/
def joinPath (dirPath fileName : Str) : Str :=
  dirPath ++ '/' :: fileName

/-- `GitignoreParser.findGitignoreFilesRecursive`.  `isFile p` models
`statSync(p)` succeeding with `stats.isFile()` true.  The source checks
`dirPath/.gitignore`, pushes it when present, and its "continue searching in
subdirectories" block has an empty body, so no recursive call ever happens. -/
def findGitignoreFilesRecursive (isFile : Str → Bool) (dirPath : Str)
    (results : List Str) (currentDepth maxDepth : Int) : List Str :=
  if maxDepth ≤ currentDepth then results
  else
    let gitignorePath := joinPath dirPath (".gitignore".data)
    if isFile gitignorePath then results ++ [gitignorePath] else results

/-- `GitignoreParser.findGitignoreFiles`. -/
def findGitignoreFiles (isFile : Str → Bool) (startPath : Str)
    (maxDepth : Int) : List Str :=
  findGitignoreFilesRecursive isFile startPath [] 0 maxDepth

end GitignoreParser

/-- The `GitignoreFile` interface.  `lastModified` is the filesystem mtime at
parse time (a `Date`, modeled as an integer timestamp); `error` is `none`
when parsing succeeded. -/
structure GitignoreFile where
  error : Option Str := none
  lastModified : Int
  path : Str
  patterns : List GitignorePattern
deriving DecidableEq, Repr

namespace GitignoreCacheManager

/-- Models `Map.prototype.get`: first entry with the key (keys are unique, so
also the only one). -/
def mapGet {V : Type} : List (Str × V) → Str → Option V
  | [], _ => none
  | (k, v) :: rest, p => if k = p then some v else mapGet rest p

/-- Models `Map.prototype.set`: replace the value in place when the key is
present, append otherwise. -/
def mapSet {V : Type} (m : List (Str × V)) (k : Str) (v : V) : List (Str × V) :=
  if m.any (fun e => e.1 = k) then
    m.map (fun e => if e.1 = k then (k, v) else e)
  else m ++ [(k, v)]

/-- Models `Map.prototype.delete`. -/
def mapDelete {V : Type} (m : List (Str × V)) (k : Str) : List (Str × V) :=
  m.filter (fun e => e.1 ≠ k)

/-- The `GitignoreCache` record owned by a `GitignoreCacheManager`. -/
structure CacheState where
  files : List (Str × GitignoreFile)
  lastUpdated : List (Str × Int)
  hitCount : Nat
  missCount : Nat
deriving DecidableEq, Repr

/-- The empty cache built by the constructor. -/
def emptyCache : CacheState :=
  { files := [], lastUpdated := [], hitCount := 0, missCount := 0 }

/-- `GitignoreCacheManager.isFileModified`.  `fs p` models `statSync(p).mtime`
(`none` when the stat throws, which the source treats as modified). -/
def isFileModified (fs : Str → Option Int) (filePath : Str)
    (cachedTime : Int) : Bool :=
  match fs filePath with
  | some mtime => cachedTime < mtime
  | none => true

/-- `GitignoreCacheManager.invalidate`. -/
def invalidate (s : CacheState) (filePath : Str) : CacheState :=
  { s with files := mapDelete s.files filePath
           lastUpdated := mapDelete s.lastUpdated filePath }

/-- `GitignoreCacheManager.get`, at call time `now` over filesystem `fs`:
the returned value (`none` is a miss) and the updated cache state. -/
def cacheGet (options : GitignoreOptions) (fs : Str → Option Int) (now : Int)
    (s : CacheState) (filePath : Str) : Option GitignoreFile × CacheState :=
  if !options.cacheEnabled then
    (none, { s with missCount := s.missCount + 1 })
  else
    match mapGet s.files filePath, mapGet s.lastUpdated filePath with
    | some cached, some lastUpdated =>
      if 0 < options.cacheTTL ∧ options.cacheTTL * 1000 < now - lastUpdated then
        let s' := invalidate s filePath
        (none, { s' with missCount := s'.missCount + 1 })
      else if isFileModified fs filePath lastUpdated then
        let s' := invalidate s filePath
        (none, { s' with missCount := s'.missCount + 1 })
      else
        (some cached, { s with hitCount := s.hitCount + 1 })
    | _, _ => (none, { s with missCount := s.missCount + 1 })

/-- `GitignoreCacheManager.evictOldest`: first entry with the strictly
smallest `lastUpdated` time, in insertion order; the guard `if (oldestPath)`
of the source skips the (never-occurring) empty-string key. -/
def evictOldest (s : CacheState) : CacheState :=
  let oldest := s.lastUpdated.foldl
    (fun acc e =>
      match acc with
      | none => some e
      | some o => if e.2 < o.2 then some e else acc)
    none
  match oldest with
  | some o => if o.1 = [] then s else invalidate s o.1
  | none => s

/-- `GitignoreCacheManager.set` at call time `now` (the source stamps the
entry with `new Date()`).  `cacheSize = 0` models an absent (falsy) bound. -/
def cacheSet (options : GitignoreOptions) (now : Int) (s : CacheState)
    (filePath : Str) (gitignoreFile : GitignoreFile) : CacheState :=
  if !options.cacheEnabled then s
  else
    let s1 :=
      if options.cacheSize ≠ 0 ∧ options.cacheSize ≤ s.files.length then
        evictOldest s
      else s
    { s1 with files := mapSet s1.files filePath gitignoreFile
              lastUpdated := mapSet s1.lastUpdated filePath now }

/-- The per-file body of `ProjectDiscoveryService.checkGitignore`: consult the
cache; on a miss re-parse through the Pattern Engine (`parseFile` models
`GitignoreParser.parseGitignoreFile`) and store the fresh result when it has
no error.  The Bool reports whether a re-parse happened. -/
def resolveGitignoreFile (options : GitignoreOptions) (fs : Str → Option Int)
    (now : Int) (parseFile : Str → GitignoreFile) (s : CacheState)
    (gitignorePath : Str) : GitignoreFile × CacheState × Bool :=
  match cacheGet options fs now s gitignorePath with
  | (some gitignoreFile, s1) => (gitignoreFile, s1, false)
  | (none, s1) =>
    let gitignoreFile := parseFile gitignorePath
    let s2 :=
      if gitignoreFile.error = none then
        cacheSet options now s1 gitignorePath gitignoreFile
      else s1
    (gitignoreFile, s2, true)

end GitignoreCacheManager

namespace ProjectDiscoveryService

/-- `ProjectDiscoveryService.getParentDirectory`: `join(path, '..')`, `none`
when the join returns the path itself.  For a normalized path the join drops
the last segment; `.` results when nothing remains of a relative path and
`/` when nothing remains of an absolute one. -/
def getParentDirectory (path : Str) : Option Str :=
  let parts := splitOnChar '/' path
  let parent :=
    if parts.length ≤ 1 then ['.']
    else
      let pp := joinSegs parts.dropLast
      if pp = [] then ['/'] else pp
  if parent = path then none else some parent

/-- The key sequence of a JavaScript `Map` after inserting the given keys in
order: first occurrence keeps its position, later duplicates are dropped. -/
def insertionKeys : List Str → List Str
  | [] => []
  | p :: rest => p :: (insertionKeys rest).filter (fun q => q ≠ p)

/-- Level of the node for `p`, `0` when absent (fresh nodes start at 0). -/
def lookupLevel : List (Str × Nat) → Str → Nat
  | [], _ => 0
  | (q, v) :: rest, p => if q = p then v else lookupLevel rest p

/-- Overwrite the level stored for `p` (the source mutates the node object
held in the map). -/
def setLevel : List (Str × Nat) → Str → Nat → List (Str × Nat)
  | [], _, _ => []
  | (q, v) :: rest, p, n =>
    if q = p then (q, n) :: setLevel rest p n else (q, v) :: setLevel rest p n

/-- One iteration of the hierarchy-building loop of
`ProjectDiscoveryService.buildProjectHierarchy` for the node at `p`: when the
parent directory is a key of the map the node's level becomes the parent's
current level plus one, otherwise the node becomes a root at level 0. -/
def hierarchyStep (keys : List Str) (levels : List (Str × Nat)) (p : Str) :
    List (Str × Nat) :=
  match getParentDirectory p with
  | some parentPath =>
    if parentPath ∈ keys then
      setLevel levels p (lookupLevel levels parentPath + 1)
    else setLevel levels p 0
  | none => setLevel levels p 0

/-- The levels of every node after `buildProjectHierarchy` ran over the
projects with the given paths, in input order. -/
def finalLevels (paths : List Str) : List (Str × Nat) :=
  let keys := insertionKeys paths
  keys.foldl (hierarchyStep keys) (keys.map fun p => (p, 0))

/-- The level field of the hierarchy node for `p` after
`buildProjectHierarchy`. -/
def nodeLevel (paths : List Str) (p : Str) : Nat :=
  lookupLevel (finalLevels paths) p

/-- The parent assigned to the node for `p` by `buildProjectHierarchy`
(`none` when `p` became a root). -/
def nodeParent (paths : List Str) (p : Str) : Option Str :=
  match getParentDirectory p with
  | some parentPath =>
    if parentPath ∈ insertionKeys paths then some parentPath else none
  | none => none

/-- Every path whose node gets a parent occurs after that parent in the
input list. -/
def parentsFirst (paths : List Str) : Bool :=
  (List.range paths.length).all fun j =>
    match nodeParent paths (paths.getD j []) with
    | some q => decide (q ∈ paths.take j)
    | none => true

/-- The fixed default-exclusion list of
`ProjectDiscoveryService.shouldExcludeDirectory`. -/
def defaultExclusions : List Str :=
  ["node_modules".data, ".git".data, "dist".data, "build".data, ".next".data,
   ".nuxt".data, "coverage".data, ".nyc_output".data, "target".data,
   "bin".data, "obj".data]

/-- A directory name hitting the default exclusions: listed verbatim or
starting with a dot. -/
def isDefaultExcluded (dirName : Str) : Bool :=
  decide (dirName ∈ defaultExclusions) || dirName.head? = some '.'

/-- `ProjectDiscoveryService.shouldExcludeDirectory`.  The default-exclusion
test on the last path segment comes first and short-circuits; `otherChecks`
abstracts the two remaining branches (the caller-supplied `excludePatterns`
test and the gitignore query), which can only exclude further. -/
def shouldExcludeDirectory (otherChecks : List Str → Bool)
    (path : List Str) : Bool :=
  let dirName := path.getLastD []
  if isDefaultExcluded dirName then true
  else otherChecks path

/-- The recursion of `ProjectDiscoveryService.scanDirectory`, collecting the
paths of the produced `ProjectInfo` records over an abstract filesystem.
Paths are segment lists; `join(currentPath, entry.name)` appends one segment
and `path.split(sep).pop()` recovers the last one.  `subdirNames p` and
`fileNames p` model the `readdirSync` listing of `p` split by entry kind
(an unreadable directory is a directory with empty listings — the source
only warns and skips).  `classify` abstracts `analyzeDirectory`, which
stamps each produced record with `path = directoryPath`, the directory
being visited.  The fuel argument is `maxDepth - currentDepth`: the source
returns `[]` as soon as `currentDepth >= maxDepth` and recurses with
`currentDepth + 1`, so the fuel reaching `0` is exactly that depth check.
Subdirectories failing `shouldExcludeDirectory` are dropped before the
recursive calls. -/
def scanDirectoryAux (classify : List Str → List Str → Bool)
    (otherChecks : List Str → Bool) (subdirNames fileNames : List Str → List Str) :
    Nat → List Str → List (List Str)
  | 0, _ => []
  | fuel + 1, currentPath =>
    let here := if classify currentPath (fileNames currentPath) then [currentPath] else []
    let directories := (subdirNames currentPath).filter
      (fun name => !shouldExcludeDirectory otherChecks (currentPath ++ [name]))
    here ++ (directories.map (fun name =>
      scanDirectoryAux classify otherChecks subdirNames fileNames fuel
        (currentPath ++ [name]))).flatten

/-- `ProjectDiscoveryService.scanDirectory` at depth `currentDepth` with
bound `maxDepth`. -/
def scanDirectory (classify : List Str → List Str → Bool)
    (otherChecks : List Str → Bool) (subdirNames fileNames : List Str → List Str)
    (maxDepth currentDepth : Nat) (currentPath : List Str) : List (List Str) :=
  scanDirectoryAux classify otherChecks subdirNames fileNames
    (maxDepth - currentDepth) currentPath

end ProjectDiscoveryService

/-- The last element of a list satisfying `f`, if any: the spec's notion of
"the last matching pattern in file order". -/
def lastMatchingOf {α : Type} (f : α → Bool) : List α → Option α
  | [] => none
  | x :: xs =>
    match lastMatchingOf f xs with
    | some y => some y
    | none => if f x then some x else none

/-- Options with ignore checking enabled, for the concrete instances below. -/
def matchOptions : GitignoreOptions :=
  { enabled := true, patternCombinationStrategy := PatternCombinationStrategy.merge }

/-- The directory pattern `build/` of the spec's containment example. -/
def buildPattern : GitignorePattern :=
  { directory := [], lineNumber := 1, negated := false,
    originalLine := "build/".data, pattern := "build/".data }

/-- Options with caching enabled, for the concrete cache instances below. -/
def cacheOptions : GitignoreOptions :=
  { cacheEnabled := true, enabled := true,
    patternCombinationStrategy := PatternCombinationStrategy.merge }

/-- A parsed ignore file cached in the concrete instances below. -/
def sampleGitignoreFile : GitignoreFile :=
  { lastModified := 40, path := "p/.gitignore".data, patterns := [] }

/-- A parse function for the concrete cache instances below. -/
def sampleParseFile : Str → GitignoreFile :=
  fun p => { lastModified := 100, path := p, patterns := [] }

/-- The cache state after storing `sampleGitignoreFile` at time 50. -/
def sampleCacheState : GitignoreCacheManager.CacheState :=
  GitignoreCacheManager.cacheSet cacheOptions 50 GitignoreCacheManager.emptyCache
    ("p/.gitignore".data) sampleGitignoreFile

/-- Subdirectory listing of a small concrete filesystem:
`code/app` contains `node_modules` and `src`. -/
def sampleSubdirNames : List Str → List Str := fun p =>
  if p = ["code".data] then ["app".data]
  else if p = ["code".data, "app".data] then
    ["node_modules".data, "src".data]
  else []

/-- File listing of the same concrete filesystem: `code/app` and
`code/app/node_modules` each hold a `package.json`. -/
def sampleFileNames : List Str → List Str := fun p =>
  if p = ["code".data, "app".data] then ["package.json".data]
  else if p = ["code".data, "app".data, "node_modules".data] then
    ["package.json".data]
  else []

/-- A classifier recording directories holding a `package.json`. -/
def sampleClassify : List Str → List Str → Bool := fun _ files =>
  files.contains ("package.json".data)

/-- The input order of the counterexample below: children before parents. -/
def cexPaths : List Str := ["a/b/c".data, "a/b".data, "a".data]

/-- A parents-first input order for the hierarchy builder. -/
def levelPaths : List Str := ["a".data, "a/b".data, "a/b/c".data, "x".data]


/-! Theorems. -/

namespace GitignoreParser

theorem jsInsert_constZero {α : Type} (l : List α) (x : α) :
    jsInsert (fun _ _ => (0 : Int)) l x = l ++ [x] := by
  induction l with
  | nil => rfl
  | cons y ys ih => simp [jsInsert, ih]

theorem foldl_append_singleton {α : Type} (l : List α) :
    ∀ acc : List α, l.foldl (fun a x => a ++ [x]) acc = acc ++ l := by
  induction l with
  | nil => intro acc; simp
  | cons y ys ih =>
    intro acc
    rw [List.foldl_cons, ih]
    simp

theorem jsSortWith_constZero {α : Type} (l : List α) :
    jsSortWith (fun _ _ => (0 : Int)) l = l := by
  unfold jsSortWith
  simp only [jsInsert_constZero]
  simpa using foldl_append_singleton l []

/-- C7: for every pattern list and every caller-supplied `priorityOrder`,
merging under the `priority` combination strategy returns exactly the same
pattern sequence as the default `merge` strategy: the priority sort is
`patterns.sort(() => 0)`, a stable sort under an all-ties comparator, i.e.
the identity permutation, and the `merge` branch returns the list as is. -/
theorem mergePatterns_priority_eq_merge (patterns : List GitignorePattern)
    (options : GitignoreOptions) :
    mergePatterns patterns
      { options with patternCombinationStrategy := PatternCombinationStrategy.priority } =
    mergePatterns patterns
      { options with patternCombinationStrategy := PatternCombinationStrategy.merge } := by
  cases h : options.priorityOrder <;>
    simp [mergePatterns, sortPatternsByPriority, jsSortWith_constZero, h]

/-- C8: for every filesystem, start path and `maxDepth`,
`findGitignoreFiles` returns exactly the start directory's own ignore file
when `maxDepth ≥ 1` and that file exists, and `[]` otherwise (in particular
for `maxDepth ≤ 0`); its length is never above one, so ignore files deeper
in the tree are never discovered. -/
theorem findGitignoreFiles_top_level_only (isFile : Str → Bool)
    (startPath : Str) (maxDepth : Int) :
    findGitignoreFiles isFile startPath maxDepth =
      (if 0 < maxDepth ∧ isFile (joinPath startPath (".gitignore".data)) = true
       then [joinPath startPath (".gitignore".data)] else []) ∧
    (findGitignoreFiles isFile startPath maxDepth).length ≤ 1 := by
  have heq : findGitignoreFiles isFile startPath maxDepth =
      (if 0 < maxDepth ∧ isFile (joinPath startPath (".gitignore".data)) = true
       then [joinPath startPath (".gitignore".data)] else []) := by
    unfold findGitignoreFiles findGitignoreFilesRecursive
    split_ifs with h1 h2 h3
    all_goals simp_all
    all_goals omega
  refine ⟨heq, ?_⟩
  rw [heq]
  split <;> simp

theorem parsePattern_lineNumber (line baseDir : Str) (n : Nat)
    (p : GitignorePattern) (h : parsePattern line baseDir n = some p) :
    p.lineNumber = n := by
  simp only [parsePattern] at h
  simp at h
  obtain ⟨-, h⟩ := h
  subst h
  rfl

theorem parseContentStep_cases (baseDir : Str) (acc : List GitignorePattern)
    (line : Str) :
    parseContentStep baseDir acc line = acc ∨
    ∃ pattern : GitignorePattern, pattern.lineNumber = acc.length + 1 ∧
      parseContentStep baseDir acc line = acc ++ [pattern] := by
  simp only [parseContentStep]
  split
  · exact Or.inl rfl
  · cases hp : parsePattern (jsTrim line) baseDir (acc.length + 1) with
    | none => exact Or.inl (by simp [hp])
    | some pattern =>
      exact Or.inr ⟨pattern, parsePattern_lineNumber _ _ _ _ hp, by simp [hp]⟩

theorem parseContentStep_lineNumber_inv (baseDir : Str)
    (acc : List GitignorePattern) (line : Str)
    (h : ∀ (j : Nat) (hj : j < acc.length), (acc.get ⟨j, hj⟩).lineNumber = j + 1) :
    ∀ (j : Nat) (hj : j < (parseContentStep baseDir acc line).length),
      ((parseContentStep baseDir acc line).get ⟨j, hj⟩).lineNumber = j + 1 := by
  rcases parseContentStep_cases baseDir acc line with hc | ⟨pattern, hn, hc⟩
  · rw [hc]
    exact h
  · rw [hc]
    intro j hj
    rcases Nat.lt_or_ge j acc.length with hl | hl
    · rw [List.get_eq_getElem, List.getElem_append_left hl]
      have := h j hl
      rwa [List.get_eq_getElem] at this
    · have hj' : j = acc.length := by
        have hlen : j < acc.length + 1 := by simpa using hj
        omega
      rw [List.get_eq_getElem, List.getElem_concat_length _ _ _ hj']
      rw [hn, hj']

theorem foldl_parseContentStep_inv (baseDir : Str) (lines : List Str) :
    ∀ acc : List GitignorePattern,
      (∀ (j : Nat) (hj : j < acc.length), (acc.get ⟨j, hj⟩).lineNumber = j + 1) →
      ∀ (j : Nat) (hj : j < (lines.foldl (parseContentStep baseDir) acc).length),
        ((lines.foldl (parseContentStep baseDir) acc).get ⟨j, hj⟩).lineNumber = j + 1 := by
  induction lines with
  | nil => intro acc h; exact h
  | cons line rest ih =>
    intro acc h
    rw [List.foldl_cons]
    exact ih _ (parseContentStep_lineNumber_inv baseDir acc line h)

/-- C10: for every ignore-file content, the k-th retained pattern (0-based
`k` here) carries `lineNumber = k + 1`, its 1-based position among the
retained patterns, regardless of how many blank, comment or otherwise
skipped lines preceded it in the source text. -/
theorem parseGitignoreContent_lineNumber_is_position (content baseDir : Str)
    (k : Nat) (hk : k < (parseGitignoreContent content baseDir).length) :
    ((parseGitignoreContent content baseDir).get ⟨k, hk⟩).lineNumber = k + 1 :=
  foldl_parseContentStep_inv baseDir (splitOnChar '\n' content) []
    (fun j hj => absurd hj (by simp)) k hk

/-- Witness for C10: in `"a\n\n# c\n!x\n!\nb"` the retained patterns are
`a`, `x` (negated) and `b`; the third gets `lineNumber = 3` even though it
sits on the sixth source line. -/
theorem parseGitignoreContent_lineNumber_is_position_witness :
    ((parseGitignoreContent ("a\n\n# c\n!x\n!\nb".data) []).get
      ⟨2, by decide⟩).lineNumber = 3 :=
  parseGitignoreContent_lineNumber_is_position ("a\n\n# c\n!x\n!\nb".data) [] 2
    (by decide)

theorem matchPathLoop_excluded (filePath : Str) (options : GitignoreOptions) :
    ∀ (patterns : List GitignorePattern) (st : Bool × Option GitignorePattern × Str),
      (matchPathLoop filePath options patterns st).1 =
        (match lastMatchingOf (fun p => patternMatches filePath p options) patterns with
         | some p => !p.negated
         | none => st.1) := by
  intro patterns
  induction patterns with
  | nil => intro st; rfl
  | cons p rest ih =>
    intro st
    rw [matchPathLoop, ih, lastMatchingOf]
    cases hl : lastMatchingOf (fun q => patternMatches filePath q options) rest with
    | some y => simp [hl]
    | none =>
      simp only [hl]
      by_cases hm : patternMatches filePath p options
      · cases hneg : p.negated <;> simp [hm, hneg]
      · simp [hm]

theorem matchPathLoop_matchedBy (filePath : Str) (options : GitignoreOptions) :
    ∀ (patterns : List GitignorePattern) (st : Bool × Option GitignorePattern × Str),
      (matchPathLoop filePath options patterns st).2.1 =
        (match lastMatchingOf
            (fun p => patternMatches filePath p options && !p.negated) patterns with
         | some p => some p
         | none => st.2.1) := by
  intro patterns
  induction patterns with
  | nil => intro st; rfl
  | cons p rest ih =>
    intro st
    rw [matchPathLoop, ih, lastMatchingOf]
    cases hl : lastMatchingOf
        (fun q => patternMatches filePath q options && !q.negated) rest with
    | some y => simp [hl]
    | none =>
      simp only [hl]
      by_cases hm : patternMatches filePath p options
      · cases hneg : p.negated <;> simp [hm, hneg]
      · simp [hm]

/-- C1: with ignore checking enabled, the final `excluded` outcome of
`matchPath` is decided by the last pattern in file order whose translated
form matches the candidate — `!negated` of that pattern, later matches
overriding earlier ones including across negation — and is `false` when no
pattern matches. -/
theorem matchPath_last_match_decides (filePath : Str)
    (patterns : List GitignorePattern) (options : GitignoreOptions)
    (h : options.enabled = true) :
    (matchPath filePath patterns options).excluded =
      (match lastMatchingOf (fun p => patternMatches filePath p options) patterns with
       | some p => !p.negated
       | none => false) := by
  rw [matchPath, h]
  exact matchPathLoop_excluded filePath options patterns (false, none, [])

/-- Witness for C1, the spec's override-law instances: the list parsed from
`"*.log\n!important.log"` leaves `important.log` not excluded, the reversed
list `"!important.log\n*.log"` excludes it. -/
theorem matchPath_last_match_decides_witness :
    (matchPath ("important.log".data)
      (parseGitignoreContent ("*.log\n!important.log".data) [])
      matchOptions).excluded = false ∧
    (matchPath ("important.log".data)
      (parseGitignoreContent ("!important.log\n*.log".data) [])
      matchOptions).excluded = true := by
  constructor
  · rw [matchPath_last_match_decides _ _ _ rfl]
    decide
  · rw [matchPath_last_match_decides _ _ _ rfl]
    decide

/-- C9: with ignore checking enabled, `matchedBy` is the last non-negated
matching pattern of the list (`none` exactly when no non-negated pattern
matches); a later negated match flips `excluded` but never replaces
`matchedBy`. -/
theorem matchPath_matchedBy_last_non_negated (filePath : Str)
    (patterns : List GitignorePattern) (options : GitignoreOptions)
    (h : options.enabled = true) :
    (matchPath filePath patterns options).matchedBy =
      lastMatchingOf (fun p => patternMatches filePath p options && !p.negated)
        patterns := by
  rw [matchPath, h]
  show (matchPathLoop filePath options patterns (false, none, [])).2.1 = _
  rw [matchPathLoop_matchedBy filePath options patterns (false, none, [])]
  cases lastMatchingOf (fun p => patternMatches filePath p options && !p.negated)
      patterns <;> rfl

/-- Witness for C9: on `important.log` against `*.log` then
`!important.log`, the negation flips the outcome to not-excluded while
`matchedBy` still reports the `*.log` pattern. -/
theorem matchPath_matchedBy_last_non_negated_witness :
    (matchPath ("important.log".data)
      (parseGitignoreContent ("*.log\n!important.log".data) [])
      matchOptions).matchedBy =
      some { directory := [], lineNumber := 1, negated := false,
             originalLine := "*.log".data, pattern := "*.log".data } ∧
    (matchPath ("important.log".data)
      (parseGitignoreContent ("*.log\n!important.log".data) [])
      matchOptions).excluded = false := by
  constructor
  · rw [matchPath_matchedBy_last_non_negated _ _ _ rfl]
    decide
  · decide

/-- C6: a pattern whose text ends in `/` matches exactly the candidates
equal to the pattern body (the text without the trailing slash) or having
the body followed by the separator as a prefix, both sides taken after
backslash normalization. -/
theorem patternMatches_trailing_slash (path : Str) (pat : GitignorePattern)
    (options : GitignoreOptions) (h : pat.pattern.getLast? = some '/') :
    (patternMatches path pat options = true ↔
      normalizePath path = (normalizePattern pat.pattern).dropLast ∨
      (normalizePattern pat.pattern).dropLast ++ ['/'] <+: normalizePath path) := by
  rw [patternMatches]
  rw [if_pos h]
  rw [matchDirectoryPattern]
  split_ifs with h1 h2
  · simp [h1]
  · simp only [true_iff]
    right
    rwa [ List.isPrefixOf_iff_prefix] at h2
  · simp only [Bool.false_eq_true, false_iff]
    rintro (hc | hc)
    · exact h1 hc
    · exact h2 (by rwa [ List.isPrefixOf_iff_prefix])

/-- Witness for C6: `build/` matches `build` and `build/output/file.txt`
(each excluded through `matchPath`) but not `my-build/file.txt`. -/
theorem patternMatches_trailing_slash_witness :
    patternMatches ("build/output/file.txt".data) buildPattern matchOptions = true ∧
    (matchPath ("build".data) [buildPattern] matchOptions).excluded = true ∧
    (matchPath ("build/output/file.txt".data) [buildPattern] matchOptions).excluded = true ∧
    (matchPath ("my-build/file.txt".data) [buildPattern] matchOptions).excluded = false := by
  refine ⟨?_, by decide, by decide, by decide⟩
  exact (patternMatches_trailing_slash _ _ _ (by decide)).mpr (Or.inr (by decide))

theorem regexTest_sound : ∀ (ts : List RTok) (s : Str),
    regexTest ts s = true →
    ∃ chunks : List Str, chunks.length = ts.length ∧ s = chunks.flatten ∧
      ∀ (i : Nat) (h1 : i < ts.length) (h2 : i < chunks.length),
        TokMatchesChunk (ts.get ⟨i, h1⟩) (chunks.get ⟨i, h2⟩) := by
  intro ts
  induction ts with
  | nil =>
    intro s hs
    rw [regexTest] at hs
    refine ⟨[], rfl, of_decide_eq_true hs, ?_⟩
    intro i h1 _
    exact absurd h1 (by simp)
  | cons t ts ih =>
    intro s hs
    cases t with
    | lit c =>
      cases s with
      | nil => simp [regexTest] at hs
      | cons d s2 =>
        simp only [regexTest] at hs
        rw [Bool.and_eq_true] at hs
        have hc : c = d := of_decide_eq_true hs.1
        obtain ⟨chunks, hlen, hflat, hchunks⟩ := ih s2 hs.2
        refine ⟨[c] :: chunks, by simp [hlen], by simp [hflat, hc], ?_⟩
        intro i h1 h2
        cases i with
        | zero => exact rfl
        | succ j =>
          exact hchunks j (Nat.lt_of_succ_lt_succ (by simpa using h1))
            (Nat.lt_of_succ_lt_succ (by simpa using h2))
    | anyChar =>
      cases s with
      | nil => simp [regexTest] at hs
      | cons d s2 =>
        simp only [regexTest] at hs
        rw [Bool.and_eq_true] at hs
        obtain ⟨chunks, hlen, hflat, hchunks⟩ := ih s2 hs.2
        refine ⟨[d] :: chunks, by simp [hlen], by simp [hflat], ?_⟩
        intro i h1 h2
        cases i with
        | zero => exact ⟨d, rfl, hs.1⟩
        | succ j =>
          exact hchunks j (Nat.lt_of_succ_lt_succ (by simpa using h1))
            (Nat.lt_of_succ_lt_succ (by simpa using h2))
    | oneNonSep =>
      cases s with
      | nil => simp [regexTest] at hs
      | cons d s2 =>
        simp only [regexTest] at hs
        rw [Bool.and_eq_true] at hs
        obtain ⟨chunks, hlen, hflat, hchunks⟩ := ih s2 hs.2
        refine ⟨[d] :: chunks, by simp [hlen], by simp [hflat], ?_⟩
        intro i h1 h2
        cases i with
        | zero => exact ⟨d, rfl, of_decide_eq_true hs.1⟩
        | succ j =>
          exact hchunks j (Nat.lt_of_succ_lt_succ (by simpa using h1))
            (Nat.lt_of_succ_lt_succ (by simpa using h2))
    | anyStar =>
      rw [regexTest] at hs
      rw [List.any_eq_true] at hs
      obtain ⟨k, _, hk⟩ := hs
      rw [Bool.and_eq_true] at hk
      obtain ⟨chunks, hlen, hflat, hchunks⟩ := ih (s.drop k) hk.2
      refine ⟨s.take k :: chunks, by simp [hlen], ?_, ?_⟩
      · rw [List.flatten_cons, ← hflat, List.take_append_drop]
      · intro i h1 h2
        cases i with
        | zero =>
          intro d hd
          exact List.all_eq_true.mp hk.1 d hd
        | succ j =>
          exact hchunks j (Nat.lt_of_succ_lt_succ (by simpa using h1))
            (Nat.lt_of_succ_lt_succ (by simpa using h2))
    | starNonSep =>
      rw [regexTest] at hs
      rw [List.any_eq_true] at hs
      obtain ⟨k, _, hk⟩ := hs
      rw [Bool.and_eq_true] at hk
      obtain ⟨chunks, hlen, hflat, hchunks⟩ := ih (s.drop k) hk.2
      refine ⟨s.take k :: chunks, by simp [hlen], ?_, ?_⟩
      · rw [List.flatten_cons, ← hflat, List.take_append_drop]
      · intro i h1 h2
        cases i with
        | zero =>
          intro d hd
          exact of_decide_eq_true (List.all_eq_true.mp hk.1 d hd)
        | succ j =>
          exact hchunks j (Nat.lt_of_succ_lt_succ (by simpa using h1))
            (Nat.lt_of_succ_lt_succ (by simpa using h2))

/-- C2 (amended): for patterns containing `**` the glob translation is
segment-restricted — a successful match splits the candidate into one chunk
per regex token, where the chunk of a single `*` (token `[^/]*`) contains no
separator and the chunk of a `?` (token `[^/]`) is exactly one non-separator
character; only the leading `.` that each `**` compiles to may consume a
separator.  For patterns without `**`, `*` translates to `.*` and `?` to
`.`, which do cross separators (see the counterexample). -/
theorem matchGlobPattern_double_star_segment_restricted
    (path pattern : Str) (options : GitignoreOptions)
    (h1 : hasDoubleStar pattern = true)
    (h2 : matchGlobPattern path pattern options = true) :
    ∃ chunks : List Str, chunks.length = (patternToRegex pattern).length ∧
      path = chunks.flatten ∧
      ∀ (i : Nat) (hi : i < (patternToRegex pattern).length)
        (hc : i < chunks.length),
        TokMatchesChunk ((patternToRegex pattern).get ⟨i, hi⟩)
          (chunks.get ⟨i, hc⟩) := by
  rw [matchGlobPattern, if_pos h1] at h2
  exact regexTest_sound _ _ h2

/-- Counterexample to C2 as stated: in patterns without `**`,
`simplePatternToRegex` maps `*` to `.*` and `?` to `.`, so `*.log` does
match `logs/app.log` and `a?b` does match `a/b`, contradicting the claimed
segment restriction and both of its examples. -/
theorem matchGlobPattern_simple_crosses_separator_cex :
    matchGlobPattern ("logs/app.log".data) ("*.log".data) matchOptions = true ∧
    matchGlobPattern ("a/b".data) ("a?b".data) matchOptions = true := by
  decide

/-- Witness for the amended C2: `**/*.log` (which contains `**`) matches
`a/x.log`, and the match decomposes into per-token chunks as stated. -/
theorem matchGlobPattern_double_star_segment_restricted_witness :
    hasDoubleStar ("**/*.log".data) = true ∧
    matchGlobPattern ("a/x.log".data) ("**/*.log".data) matchOptions = true ∧
    (∃ chunks : List Str,
      chunks.length = (patternToRegex ("**/*.log".data)).length ∧
      ("a/x.log".data : Str) = chunks.flatten ∧
      ∀ (i : Nat) (hi : i < (patternToRegex ("**/*.log".data)).length)
        (hc : i < chunks.length),
        TokMatchesChunk ((patternToRegex ("**/*.log".data)).get ⟨i, hi⟩)
          (chunks.get ⟨i, hc⟩)) :=
  ⟨by decide, by decide,
   matchGlobPattern_double_star_segment_restricted ("a/x.log".data)
     ("**/*.log".data) matchOptions (by decide) (by decide)⟩

end GitignoreParser


namespace GitignoreCacheManager

theorem mapGet_map_replace {V : Type} (m : List (Str × V)) (k : Str) (v : V)
    (h : m.any (fun e => e.1 = k) = true) :
    mapGet (m.map fun e => if e.1 = k then (k, v) else e) k = some v := by
  induction m with
  | nil => simp at h
  | cons e rest ih =>
    obtain ⟨a, b⟩ := e
    by_cases he : a = k
    · subst he
      rw [List.map_cons, if_pos rfl, mapGet, if_pos rfl]
    · rw [List.map_cons]
      simp only [if_neg he]
      rw [mapGet, if_neg he]
      apply ih
      simp only [List.any_cons, Bool.or_eq_true, decide_eq_true_eq] at h
      rcases h with h | h
      · exact absurd h he
      · exact h

theorem mapGet_append_new {V : Type} (m : List (Str × V)) (k : Str) (v : V)
    (h : m.any (fun e => e.1 = k) = false) :
    mapGet (m ++ [(k, v)]) k = some v := by
  induction m with
  | nil =>
    rw [List.nil_append]
    simp only [mapGet]
    exact if_pos trivial
  | cons e rest ih =>
    obtain ⟨a, b⟩ := e
    simp only [List.any_cons, Bool.or_eq_false_iff, decide_eq_false_iff_not] at h
    rw [List.cons_append, mapGet, if_neg h.1]
    exact ih h.2

theorem mapGet_mapSet_self {V : Type} (m : List (Str × V)) (k : Str) (v : V) :
    mapGet (mapSet m k v) k = some v := by
  unfold mapSet
  split
  · exact mapGet_map_replace m k v (by assumption)
  · next hn => exact mapGet_append_new m k v (Bool.eq_false_iff.mpr hn)

theorem mapGet_mapDelete_self {V : Type} (m : List (Str × V)) (k : Str) :
    mapGet (mapDelete m k) k = none := by
  unfold mapDelete
  induction m with
  | nil => rfl
  | cons e rest ih =>
    obtain ⟨a, b⟩ := e
    rw [List.filter_cons]
    by_cases ha : a = k
    · rw [if_neg (by simp [ha])]
      exact ih
    · rw [if_pos (by simp [ha])]
      rw [mapGet, if_neg ha]
      exact ih

theorem cacheSet_lookup (options : GitignoreOptions) (now : Int) (s : CacheState)
    (filePath : Str) (f : GitignoreFile) (h : options.cacheEnabled = true) :
    mapGet (cacheSet options now s filePath f).files filePath = some f ∧
    mapGet (cacheSet options now s filePath f).lastUpdated filePath = some now := by
  unfold cacheSet
  rw [h]
  exact ⟨mapGet_mapSet_self _ _ _, mapGet_mapSet_self _ _ _⟩

theorem cacheGet_modified_after_set (options : GitignoreOptions)
    (fs : Str → Option Int) (setTime getTime : Int) (s : CacheState)
    (filePath : Str) (gitignoreFile : GitignoreFile) (mtime : Int)
    (hce : options.cacheEnabled = true) (hfs : fs filePath = some mtime)
    (hlt : setTime < mtime) :
    cacheGet options fs getTime
        (cacheSet options setTime s filePath gitignoreFile) filePath =
      (none,
       { invalidate (cacheSet options setTime s filePath gitignoreFile)
            filePath with
         missCount := (invalidate (cacheSet options setTime s filePath
            gitignoreFile) filePath).missCount + 1 }) := by
  obtain ⟨hf, hl⟩ := cacheSet_lookup options setTime s filePath gitignoreFile hce
  have hmod : isFileModified fs filePath setTime = true := by
    rw [isFileModified, hfs]
    exact decide_eq_true hlt
  simp only [cacheGet, hce, Bool.not_true, Bool.false_eq_true, if_false, hf, hl]
  by_cases hTTL : 0 < options.cacheTTL ∧
      options.cacheTTL * 1000 < getTime - setTime
  · rw [if_pos hTTL]
  · rw [if_neg hTTL, if_pos hmod]

/-- C4: with caching enabled, after `set` stores an ignore file, an on-disk
modification time strictly newer than the time recorded at caching makes the
next `get` a miss: it returns `null`, evicts the entry from both maps,
increments the miss counter, and the `checkGitignore` caller then re-parses
the file through the Pattern Engine.  Conversely `get` returns a hit only
when the entry exists, a configured positive TTL has not elapsed, and the
on-disk modification time is not newer than the recorded time. -/
theorem cacheGet_mtime_invalidation_and_hit_conditions :
    (∀ (options : GitignoreOptions) (fs : Str → Option Int) (setTime getTime : Int)
       (s : CacheState) (filePath : Str) (gitignoreFile : GitignoreFile)
       (parseFile : Str → GitignoreFile) (mtime : Int),
      options.cacheEnabled = true →
      fs filePath = some mtime →
      setTime < mtime →
      (cacheGet options fs getTime
        (cacheSet options setTime s filePath gitignoreFile) filePath).1 = none ∧
      mapGet (cacheGet options fs getTime
        (cacheSet options setTime s filePath gitignoreFile) filePath).2.files filePath = none ∧
      mapGet (cacheGet options fs getTime
        (cacheSet options setTime s filePath gitignoreFile) filePath).2.lastUpdated filePath = none ∧
      (cacheGet options fs getTime
        (cacheSet options setTime s filePath gitignoreFile) filePath).2.missCount =
        (cacheSet options setTime s filePath gitignoreFile).missCount + 1 ∧
      (resolveGitignoreFile options fs getTime parseFile
        (cacheSet options setTime s filePath gitignoreFile) filePath).2.2 = true) ∧
    (∀ (options : GitignoreOptions) (fs : Str → Option Int) (now : Int)
       (s : CacheState) (filePath : Str) (f : GitignoreFile) (s2 : CacheState),
      cacheGet options fs now s filePath = (some f, s2) →
      options.cacheEnabled = true ∧
      ∃ lastUpdated : Int,
        mapGet s.files filePath = some f ∧
        mapGet s.lastUpdated filePath = some lastUpdated ∧
        (0 < options.cacheTTL → now - lastUpdated ≤ options.cacheTTL * 1000) ∧
        isFileModified fs filePath lastUpdated = false) := by
  constructor
  · intro options fs setTime getTime s filePath gitignoreFile parseFile mtime
      hce hfs hlt
    have hmain := cacheGet_modified_after_set options fs setTime getTime s
      filePath gitignoreFile mtime hce hfs hlt
    refine ⟨by rw [hmain], ?_, ?_, ?_, ?_⟩
    · rw [hmain]
      exact mapGet_mapDelete_self _ _
    · rw [hmain]
      exact mapGet_mapDelete_self _ _
    · rw [hmain]
      rfl
    · unfold resolveGitignoreFile
      rw [hmain]
  · intro options fs now s filePath f s2 heq
    unfold cacheGet at heq
    cases hce : options.cacheEnabled with
    | false =>
      rw [hce] at heq
      simp at heq
    | true =>
      rw [hce] at heq
      simp only [Bool.not_true, Bool.false_eq_true, if_false] at heq
      refine ⟨rfl, ?_⟩
      cases hf : mapGet s.files filePath with
      | none =>
        rw [hf] at heq
        cases hl : mapGet s.lastUpdated filePath <;> rw [hl] at heq <;>
          simp at heq
      | some cached =>
        rw [hf] at heq
        cases hl : mapGet s.lastUpdated filePath with
        | none =>
          rw [hl] at heq
          simp at heq
        | some lastUpdated =>
          rw [hl] at heq
          dsimp only at heq
          refine ⟨lastUpdated, ?_⟩
          split_ifs at heq with h1 h2
          · simp at heq
          · simp at heq
          · simp only [Prod.mk.injEq, Option.some.injEq] at heq
            refine ⟨by rw [heq.1], rfl, ?_, ?_⟩
            · intro hpos
              rcases not_and_or.mp h1 with hc | hc
              · exact absurd hpos hc
              · omega
            · exact Bool.eq_false_iff.mpr h2

/-- Witness for C4: an entry stored at time 50 over a file whose mtime then
becomes 100 misses, is evicted and bumps the miss counter, and the caller
re-parses; a `get` over an unmodified file (mtime 40) with no TTL is a hit
satisfying the stated conditions. -/
theorem cacheGet_mtime_invalidation_and_hit_conditions_witness :
    ((cacheGet cacheOptions (fun _ => some 100) 60 sampleCacheState
        ("p/.gitignore".data)).1 = none ∧
     mapGet (cacheGet cacheOptions (fun _ => some 100) 60 sampleCacheState
        ("p/.gitignore".data)).2.files ("p/.gitignore".data) = none ∧
     mapGet (cacheGet cacheOptions (fun _ => some 100) 60 sampleCacheState
        ("p/.gitignore".data)).2.lastUpdated ("p/.gitignore".data) = none ∧
     (cacheGet cacheOptions (fun _ => some 100) 60 sampleCacheState
        ("p/.gitignore".data)).2.missCount = sampleCacheState.missCount + 1 ∧
     (resolveGitignoreFile cacheOptions (fun _ => some 100) 60 sampleParseFile
        sampleCacheState ("p/.gitignore".data)).2.2 = true) ∧
    (cacheOptions.cacheEnabled = true ∧
     ∃ lastUpdated : Int,
       mapGet sampleCacheState.files ("p/.gitignore".data) = some sampleGitignoreFile ∧
       mapGet sampleCacheState.lastUpdated ("p/.gitignore".data) = some lastUpdated ∧
       (0 < cacheOptions.cacheTTL →
         60 - lastUpdated ≤ cacheOptions.cacheTTL * 1000) ∧
       isFileModified (fun _ => some 40) ("p/.gitignore".data) lastUpdated = false) :=
  ⟨cacheGet_mtime_invalidation_and_hit_conditions.1 cacheOptions
      (fun _ => some 100) 50 60 emptyCache ("p/.gitignore".data)
      sampleGitignoreFile sampleParseFile 100 rfl rfl (by decide),
   cacheGet_mtime_invalidation_and_hit_conditions.2 cacheOptions
      (fun _ => some 40) 60 sampleCacheState ("p/.gitignore".data)
      sampleGitignoreFile
      (cacheGet cacheOptions (fun _ => some 40) 60 sampleCacheState
        ("p/.gitignore".data)).2 (by decide)⟩

end GitignoreCacheManager

namespace ProjectDiscoveryService

theorem scanDirectoryAux_paths (classify : List Str → List Str → Bool)
    (otherChecks : List Str → Bool) (subdirNames fileNames : List Str → List Str) :
    ∀ (fuel : Nat) (currentPath : List Str) (p : List Str),
      p ∈ scanDirectoryAux classify otherChecks subdirNames fileNames fuel
        currentPath →
      ∃ l, p = currentPath ++ l ∧ ∀ seg ∈ l, isDefaultExcluded seg = false := by
  intro fuel
  induction fuel with
  | zero =>
    intro currentPath p hp
    simp [scanDirectoryAux] at hp
  | succ fuel ih =>
    intro currentPath p hp
    rw [scanDirectoryAux] at hp
    rcases List.mem_append.mp hp with hp | hp
    · cases hcc : classify currentPath (fileNames currentPath) with
      | false => simp [hcc] at hp
      | true =>
        simp only [hcc, if_true] at hp
        rcases List.mem_singleton.mp hp with rfl
        exact ⟨[], by simp, by simp⟩
    · rw [List.mem_flatten] at hp
      obtain ⟨L, hL, hpL⟩ := hp
      rw [List.mem_map] at hL
      obtain ⟨name, hname, rfl⟩ := hL
      rw [List.mem_filter] at hname
      have hne : shouldExcludeDirectory otherChecks (currentPath ++ [name]) = false := by
        have := hname.2
        simp only [Bool.not_eq_eq_eq_not, Bool.not_false] at this
        exact this
      have hseg : isDefaultExcluded name = false := by
        rw [shouldExcludeDirectory] at hne
        rw [List.getLastD_concat] at hne
        by_cases hd : isDefaultExcluded name = true
        · rw [if_pos hd] at hne
          exact absurd hne (by simp)
        · exact Bool.eq_false_iff.mpr hd
      obtain ⟨l2, rfl, hall⟩ := ih (currentPath ++ [name]) p hpL
      refine ⟨name :: l2, by simp, ?_⟩
      intro seg hs
      rcases List.mem_cons.mp hs with rfl | hs
      · exact hseg
      · exact hall seg hs

/-- C5: for every scan over any filesystem, a subdirectory whose name is in
the fixed default-exclusion set or starts with a dot is never descended into
and never classified: every path in the scan output extends the scanned root
only by non-default-excluded segments, so no output path equals such a
subdirectory or lies below it. -/
theorem scanDirectory_never_in_default_excluded
    (classify : List Str → List Str → Bool) (otherChecks : List Str → Bool)
    (subdirNames fileNames : List Str → List Str)
    (maxDepth currentDepth : Nat) (currentPath p : List Str)
    (hp : p ∈ scanDirectory classify otherChecks subdirNames fileNames
      maxDepth currentDepth currentPath) :
    (∃ l, p = currentPath ++ l ∧ ∀ seg ∈ l, isDefaultExcluded seg = false) ∧
    ∀ (q : List Str) (n : Str), isDefaultExcluded n = true →
      ¬ (currentPath ++ q ++ [n]) <+: p := by
  have hmain := scanDirectoryAux_paths classify otherChecks subdirNames
    fileNames (maxDepth - currentDepth) currentPath p hp
  refine ⟨hmain, ?_⟩
  obtain ⟨l, rfl, hall⟩ := hmain
  intro q n hn hpre
  rw [List.append_assoc] at hpre
  have hql : q ++ [n] <+: l := (List.prefix_append_right_inj currentPath).mp hpre
  have hnl : n ∈ l := hql.subset (by simp)
  exact absurd (hall n hnl) (by simp [hn])

/-- Witness for C5: scanning the root `code` of a filesystem where
`code/app` and `code/app/node_modules` both hold a `package.json` yields the
record path `code/app`, which extends the root only by the non-excluded
segment `app` and lies below no default-excluded directory. -/
theorem scanDirectory_never_in_default_excluded_witness :
    (∃ l, ["code".data, "app".data] = ["code".data] ++ l ∧
      ∀ seg ∈ l, isDefaultExcluded seg = false) ∧
    ∀ (q : List Str) (n : Str), isDefaultExcluded n = true →
      ¬ (["code".data] ++ q ++ [n]) <+: ["code".data, "app".data] :=
  scanDirectory_never_in_default_excluded sampleClassify (fun _ => false)
    sampleSubdirNames sampleFileNames 5 0 ["code".data]
    ["code".data, "app".data] (by decide)


theorem insertionKeys_of_nodup (paths : List Str) (hnd : paths.Nodup) :
    insertionKeys paths = paths := by
  induction paths with
  | nil => rfl
  | cons p rest ih =>
    rw [List.nodup_cons] at hnd
    rw [insertionKeys, ih hnd.2]
    congr 1
    apply List.filter_eq_self.mpr
    intro a ha
    simp only [decide_eq_true_eq]
    intro hap
    exact hnd.1 (hap ▸ ha)

theorem setLevel_keys (levels : List (Str × Nat)) (p : Str) (n : Nat) :
    (setLevel levels p n).map (fun e => e.1) = levels.map (fun e => e.1) := by
  induction levels with
  | nil => rfl
  | cons e rest ih =>
    obtain ⟨a, v⟩ := e
    rw [setLevel]
    by_cases ha : a = p
    · rw [if_pos ha]
      simp [ih, ha]
    · rw [if_neg ha]
      simp [ih]

theorem lookupLevel_setLevel_ne (levels : List (Str × Nat)) (p q : Str)
    (n : Nat) (h : q ≠ p) :
    lookupLevel (setLevel levels p n) q = lookupLevel levels q := by
  induction levels with
  | nil => rfl
  | cons e rest ih =>
    obtain ⟨a, v⟩ := e
    rw [setLevel]
    by_cases ha : a = p
    · rw [if_pos ha, lookupLevel, lookupLevel, if_neg (by rw [ha]; exact fun hh => h hh.symm)]
      rw [if_neg (by rw [ha]; exact fun hh => h hh.symm)]
      exact ih
    · rw [if_neg ha, lookupLevel, lookupLevel]
      by_cases haq : a = q
      · rw [if_pos haq, if_pos haq]
      · rw [if_neg haq, if_neg haq]
        exact ih

theorem lookupLevel_setLevel_self (levels : List (Str × Nat)) (p : Str)
    (n : Nat) (h : p ∈ levels.map (fun e => e.1)) :
    lookupLevel (setLevel levels p n) p = n := by
  induction levels with
  | nil => simp at h
  | cons e rest ih =>
    obtain ⟨a, v⟩ := e
    rw [setLevel]
    by_cases ha : a = p
    · rw [if_pos ha, lookupLevel, if_pos ha]
    · rw [if_neg ha, lookupLevel, if_neg ha]
      apply ih
      rcases List.mem_map.mp h with ⟨e2, he2, hee⟩
      rcases List.mem_cons.mp he2 with rfl | he2
      · exact absurd hee ha
      · exact List.mem_map.mpr ⟨e2, he2, hee⟩

theorem lookupLevel_hierarchyStep_ne (keys : List Str)
    (levels : List (Str × Nat)) (x p : Str) (h : p ≠ x) :
    lookupLevel (hierarchyStep keys levels x) p = lookupLevel levels p := by
  rw [hierarchyStep]
  cases getParentDirectory x with
  | none => exact lookupLevel_setLevel_ne levels x p 0 h
  | some parentPath =>
    dsimp only
    by_cases hk : parentPath ∈ keys
    · rw [if_pos hk]
      exact lookupLevel_setLevel_ne levels x p _ h
    · rw [if_neg hk]
      exact lookupLevel_setLevel_ne levels x p 0 h

theorem hierarchyStep_keys (keys : List Str) (levels : List (Str × Nat))
    (x : Str) :
    (hierarchyStep keys levels x).map (fun e => e.1) =
      levels.map (fun e => e.1) := by
  rw [hierarchyStep]
  cases getParentDirectory x with
  | none => exact setLevel_keys levels x 0
  | some parentPath =>
    dsimp only
    by_cases hk : parentPath ∈ keys
    · rw [if_pos hk]
      exact setLevel_keys levels x _
    · rw [if_neg hk]
      exact setLevel_keys levels x 0

theorem lookupLevel_foldl_not_mem (keys : List Str) (l : List Str) :
    ∀ (levels : List (Str × Nat)) (p : Str), p ∉ l →
      lookupLevel (List.foldl (hierarchyStep keys) levels l) p =
        lookupLevel levels p := by
  induction l with
  | nil => intro levels p _; rfl
  | cons x rest ih =>
    intro levels p hp
    rw [List.foldl_cons]
    rw [ih _ p (fun hh => hp (List.mem_cons_of_mem x hh))]
    exact lookupLevel_hierarchyStep_ne keys levels x p
      (fun hh => hp (hh ▸ List.mem_cons_self x rest))

theorem foldl_hierarchyStep_keys (keys : List Str) (l : List Str) :
    ∀ levels : List (Str × Nat),
      (List.foldl (hierarchyStep keys) levels l).map (fun e => e.1) =
        levels.map (fun e => e.1) := by
  induction l with
  | nil => intro levels; rfl
  | cons x rest ih =>
    intro levels
    rw [List.foldl_cons, ih, hierarchyStep_keys]

theorem getD_append_cons (l1 : List Str) (p : Str) (l2 : List Str) :
    (l1 ++ p :: l2).getD l1.length [] = p := by
  induction l1 with
  | nil => rfl
  | cons a t ih => simpa using ih

/-- C3 (amended): for every list of project paths with unique entries that
is ordered parents-first (whenever a node is assigned a parent, the parent
occurs earlier in the list), the forest built by `buildProjectHierarchy`
satisfies the invariant: a node with a parent has level equal to its
parent's level plus one, and a root has level 0. -/
theorem buildProjectHierarchy_levels_parents_first (paths : List Str)
    (hnd : paths.Nodup) (hord : parentsFirst paths = true) :
    ∀ p ∈ paths,
      (∀ q, nodeParent paths p = some q →
        nodeLevel paths p = nodeLevel paths q + 1) ∧
      (nodeParent paths p = none → nodeLevel paths p = 0) := by
  intro p hp
  obtain ⟨l1, l2, hsplit⟩ := List.append_of_mem hp
  have hkeys : insertionKeys paths = paths := insertionKeys_of_nodup paths hnd
  have hnd2 : (l1 ++ p :: l2).Nodup := hsplit ▸ hnd
  rw [List.nodup_append] at hnd2
  have hpl2 : p ∉ l2 := by
    have hc := hnd2.2.1
    rw [List.nodup_cons] at hc
    exact hc.1
  have hfold : finalLevels paths =
      List.foldl (hierarchyStep paths)
        (hierarchyStep paths
          (List.foldl (hierarchyStep paths) (paths.map fun q => (q, 0)) l1) p)
        l2 := by
    simp only [finalLevels]
    rw [hkeys]
    nth_rewrite 3 [hsplit]
    rw [List.foldl_append, List.foldl_cons]
  set S := List.foldl (hierarchyStep paths) (paths.map fun q => (q, 0)) l1
    with hS
  have hkeysS : S.map (fun e => e.1) = paths := by
    rw [hS, foldl_hierarchyStep_keys, List.map_map]
    rw [show ((fun (e : Str × Nat) => e.1) ∘ fun q => (q, (0 : Nat))) = id from rfl]
    exact List.map_id paths
  have hlevel_p : nodeLevel paths p = lookupLevel (hierarchyStep paths S p) p := by
    rw [nodeLevel, hfold]
    exact lookupLevel_foldl_not_mem paths l2 _ p hpl2
  constructor
  · intro q hq
    have hgp : getParentDirectory p = some q ∧ q ∈ paths := by
      rw [nodeParent] at hq
      cases hg : getParentDirectory p with
      | none => rw [hg] at hq; simp at hq
      | some r =>
        rw [hg] at hq
        dsimp only at hq
        by_cases hr : r ∈ insertionKeys paths
        · rw [if_pos hr] at hq
          cases hq
          exact ⟨rfl, by rwa [hkeys] at hr⟩
        · rw [if_neg hr] at hq
          exact Option.noConfusion hq
    have hstep : hierarchyStep paths S p =
        setLevel S p (lookupLevel S q + 1) := by
      rw [hierarchyStep, hgp.1]
      dsimp only
      rw [if_pos hgp.2]
    have hql1 : q ∈ l1 := by
      have hj : l1.length < paths.length := by
        rw [hsplit]
        simp
      have hall := List.all_eq_true.mp hord l1.length (List.mem_range.mpr hj)
      rw [hsplit, getD_append_cons, ← hsplit] at hall
      rw [hq] at hall
      dsimp only at hall
      rw [hsplit, List.take_left] at hall
      exact of_decide_eq_true hall
    have hq_not : q ∉ p :: l2 := fun hmem => (hnd2.2.2 hql1) hmem
    have hlevel_q : nodeLevel paths q = lookupLevel S q := by
      rw [nodeLevel, hfold]
      rw [lookupLevel_foldl_not_mem paths l2 _ q
        (fun hh => hq_not (List.mem_cons_of_mem p hh))]
      exact lookupLevel_hierarchyStep_ne paths S p q
        (fun hh => hq_not (hh ▸ List.mem_cons_self p l2))
    rw [hlevel_p, hstep, hlevel_q]
    exact lookupLevel_setLevel_self S p _ (by rw [hkeysS]; exact hp)
  · intro hq
    have hstep : hierarchyStep paths S p = setLevel S p 0 := by
      rw [nodeParent] at hq
      cases hg : getParentDirectory p with
      | none => rw [hierarchyStep, hg]
      | some r =>
        rw [hg] at hq
        dsimp only at hq
        by_cases hr : r ∈ insertionKeys paths
        · rw [if_pos hr] at hq
          exact Option.noConfusion hq
        · rw [hierarchyStep, hg]
          dsimp only
          rw [if_neg (by rwa [hkeys] at hr)]
    rw [hlevel_p, hstep]
    exact lookupLevel_setLevel_self S p 0 (by rw [hkeysS]; exact hp)

/-- Counterexample to C3 as stated: in the input order `a/b/c`, `a/b`, `a`
(children before parents, unique paths), `a/b/c` is assigned parent `a/b`
but both end at level 1, because the single pass reads the parent's level
before the parent itself has been processed. -/
theorem buildProjectHierarchy_level_invariant_cex :
    cexPaths.Nodup ∧
    nodeParent cexPaths ("a/b/c".data) = some ("a/b".data) ∧
    nodeLevel cexPaths ("a/b/c".data) = 1 ∧
    nodeLevel cexPaths ("a/b".data) = 1 ∧
    nodeLevel cexPaths ("a/b/c".data) ≠ nodeLevel cexPaths ("a/b".data) + 1 := by
  decide

/-- Witness for the amended C3 on the parents-first list
`a`, `a/b`, `a/b/c`, `x`. -/
theorem buildProjectHierarchy_levels_parents_first_witness :
    nodeLevel levelPaths ("a/b/c".data) = nodeLevel levelPaths ("a/b".data) + 1 :=
  (buildProjectHierarchy_levels_parents_first levelPaths (by decide) (by decide)
    ("a/b/c".data) (by decide)).1 ("a/b".data) (by decide)

end ProjectDiscoveryService

end ProjectCode
